import Mathlib

/-!
# Verification of the ansify color-quantization engine

Shallow embedding of `src/lib.rs` (crate `ansify`).  Rust `f32` arithmetic
on normalized colors and coverage fractions is idealized as exact rational
arithmetic (`ℚ`); `u8`/`u32` values are `ℕ` with explicit `% 2^w` where
truncation matters.  The external `kd_tree` crate's `KdMap::nearest` is
modelled, per its documented contract (exact nearest neighbour under
squared Euclidean distance, deterministic but unspecified tie-break), as a
linear argmin over the build list with first-in-build-order tie-break.
Rust assertions (`assert!`), which abort the process, are modelled by the
`Outcome.abort` constructor; panics cannot return values, so a function
whose only failure mode is an assertion returns `Outcome`.
-/

/-- An 8-bit RGB triple `[u8; 3]`; channels are `ℕ` values (0–255 in real
palettes, unconstrained here as nothing in the code enforces the range). -/
abbrev Color := ℕ × ℕ × ℕ

/-- A normalized RGB color `[f32; 3]`, idealized as exact rationals. -/
abbrev QColor := ℚ × ℚ × ℚ

/-- An RGBA pixel `[u8; 4]`. -/
abbrev RGBA := ℕ × ℕ × ℕ × ℕ

/-- `normalize_color`: divide each 8-bit channel by 255. -/
def normalizeColor (color : Color) : QColor :=
  ((color.1 : ℚ) / 255, (color.2.1 : ℚ) / 255, (color.2.2 : ℚ) / 255)

/-- `blend_two_colors`: per-channel linear blend, `r` weighting `color_a`. -/
def blendTwoColors (color_a color_b : QColor) (r : ℚ) : QColor :=
  (color_a.1 * r + color_b.1 * (1 - r),
   color_a.2.1 * r + color_b.2.1 * (1 - r),
   color_a.2.2 * r + color_b.2.2 * (1 - r))

/-- Squared Euclidean distance in normalized RGB space, the metric used by
`kd_tree`'s `nearest`. -/
def sqDist (a b : QColor) : ℚ :=
  (a.1 - b.1) ^ 2 + (a.2.1 - b.2.1) ^ 2 + (a.2.2 - b.2.2) ^ 2

/-- `struct Texel`: a candidate rendering choice.  The two color ids are
`u8` in Rust (`i as u8`), so constructors store them reduced `% 256`. -/
structure Texel where
  foreground_color : ℕ
  background_color : ℕ
  block : Char
deriving DecidableEq, Repr

instance : Inhabited Texel := ⟨⟨0, 0, 'a'⟩⟩

/-- `struct Shade`: a glyph character with its coverage fraction.  The Rust
field is named `ratio`; it is renamed `cover` here. -/
structure Shade where
  cover : ℚ
  block : Char
deriving DecidableEq, Repr

/-- `struct Palette`. -/
structure Palette where
  colors : List Color
deriving DecidableEq, Repr

/-- `struct Blocks`: cell size plus the glyph map.  The Rust field is a
`BTreeMap<char, Vec<Vec<bool>>>`; it is modelled as its iteration
sequence, an association list.  The `BTreeMap` invariants (keys strictly
increasing, hence unique) are stated as hypotheses where theorems need
them. -/
structure Blocks where
  width : ℕ
  height : ℕ
  blocks : List (Char × List (List Bool))
deriving DecidableEq, Repr

/-- Result of a Rust computation whose only failure mode is an `assert!`
failure, which aborts the process (there is no typed error path). -/
inductive Outcome (α : Type) where
  | ok (val : α)
  | abort
deriving DecidableEq, Repr

/-- The dimension check of `Blocks::from`: every bitmap has `height` rows,
each of length `width`. -/
def blocksValid (b : Blocks) : Bool :=
  b.blocks.all (fun p =>
    p.2.length = b.height && p.2.all (fun row => row.length = b.width))

/-- The validation step of `Blocks::from` (file IO and YAML parsing are out
of scope): the `assert!` loop over all bitmaps.  A failed assertion aborts
the process. -/
def blocksFrom (b : Blocks) : Outcome Blocks :=
  if blocksValid b then .ok b else .abort

/-- `count_foreground_pixels`: number of `true` cells in a bitmap. -/
def countForegroundPixels (bitmap : List (List Bool)) : ℕ :=
  (bitmap.map (fun row => (row.map (fun x => if x then 1 else 0)).sum)).sum

/-- The shade-generation loop of `ANSIfier::new`: one `Shade` per glyph, in
map iteration order, with coverage `#true / (width*height)`. -/
def mkShades (b : Blocks) : List Shade :=
  b.blocks.map (fun p =>
    ⟨(countForegroundPixels p.2 : ℚ) / ((b.width * b.height : ℕ) : ℚ), p.1⟩)

/-- The texel-generation body of `ANSIfier::new` for one shade.  Indexed
iteration `palette.colors.iter().enumerate()` is rendered as iteration over
`List.range` with `getD`; `i as u8` is `i % 256`.  In the partial-coverage
branch the code skips a pair when the two palette *colors* are equal
(`foreground_color == background_color` compares values, not indices). -/
def texelsForShade (colors : List Color) (s : Shade) : List (QColor × Texel) :=
  if s.cover = 0 then
    (List.range colors.length).map (fun i =>
      (normalizeColor (colors.getD i default), ⟨0 % 256, i % 256, s.block⟩))
  else if s.cover = 1 then
    (List.range colors.length).map (fun i =>
      (normalizeColor (colors.getD i default), ⟨i % 256, 0 % 256, s.block⟩))
  else
    (List.range colors.length).flatMap (fun i =>
      (List.range colors.length).filterMap (fun j =>
        if colors.getD i default = colors.getD j default then none
        else some
          (blendTwoColors (normalizeColor (colors.getD i default))
            (normalizeColor (colors.getD j default)) s.cover,
           ⟨i % 256, j % 256, s.block⟩)))

/-- The full texel list built by `ANSIfier::new`: concatenation of the
per-shade lists, in shade order.  This is the build list handed to
`KdMap::build_by_ordered_float`. -/
def ansifierTexels (colors : List Color) (b : Blocks) : List (QColor × Texel) :=
  (mkShades b).flatMap (texelsForShade colors)

/-- `struct ANSIfier`: the engine.  The kd-tree is represented by its build
list `texels`; queries are modelled by `nearest` below. -/
structure ANSIfier where
  palette : Palette
  blocks : Blocks
  texels : List (QColor × Texel)

/-- `ANSIfier::new`: infallible construction (the Rust function returns a
bare `ANSIfier`, performing no validation of any kind). -/
def ansifierNew (palette : Palette) (blocks : Blocks) : ANSIfier :=
  ⟨palette, blocks, ansifierTexels palette.colors blocks⟩

/-- Model of `KdMap::nearest` (external `kd_tree` crate): exact nearest
neighbour by squared Euclidean distance over the build list, ties broken
in favour of the earliest entry in build order (the crate guarantees exact
nearest with a deterministic, unspecified tie-break; the seq and par code
paths query the same tree, so one fixed model serves both).  Returns
`none` exactly when the build list is empty, where the Rust `.unwrap()`
would panic. -/
def nearest (entries : List (QColor × Texel)) (q : QColor) :
    Option (QColor × Texel) :=
  match entries with
  | [] => none
  | e :: rest =>
    some (rest.foldl
      (fun best cur => if sqDist cur.1 q < sqDist best.1 q then cur else best) e)

/-! ## Images

`image::RgbImage` / `RgbaImage` are modelled as a size plus a total pixel
function.  `from_fn` clamps to the declared size (out-of-bounds access in
the `image` crate is undefined/panicking; the clamp fixes a canonical
total extension); `new` is the all-zero image (`image` zero-initializes);
`put_pixel` is pointwise function update (every write performed by the
code under the stated hypotheses is in bounds). -/

structure Image (Pix : Type) where
  width : ℕ
  height : ℕ
  pix : ℕ → ℕ → Pix

/-- `RgbaImage::new` / `RgbImage::new`: zero-filled image. -/
def Image.mk0 (Pix : Type) [Inhabited Pix] (w h : ℕ) : Image Pix :=
  ⟨w, h, fun _ _ => default⟩

/-- `RgbaImage::from_fn`. -/
def Image.fromFn (Pix : Type) [Inhabited Pix] (w h : ℕ) (f : ℕ → ℕ → Pix) :
    Image Pix :=
  ⟨w, h, fun x y => if x < w ∧ y < h then f x y else default⟩

/-- `put_pixel`. -/
def Image.put {Pix : Type} (img : Image Pix) (x y : ℕ) (p : Pix) : Image Pix :=
  { img with pix := fun u v => if u = x ∧ v = y then p else img.pix u v }

/-- A sequence of `put_pixel` writes, applied first to last. -/
def Image.writeAll {Pix : Type} (img : Image Pix)
    (ws : List ((ℕ × ℕ) × Pix)) : Image Pix :=
  ws.foldl (fun im w => im.put w.1.1 w.1.2 w.2) img

/-! ## GPU table generation (`generate_lut_and_map`) -/

/-- The `char_to_idx` map built by `generate_lut_and_map`: iterating the
glyph map (in its iteration order) inserting successive counter values;
the counter is a `u8`, so the stored index is the key's position `% 256`. -/
def charIdx (keys : List Char) (c : Char) : ℕ :=
  keys.indexOf c % 256

/-- The quantized 8-bit RGB triple reconstructed from a LUT address,
normalized: `r = x & 0xFF`, `g = y & 0xFF`,
`b = ((x >> 8) & 0xF) | (((y >> 8) & 0xF) << 4)`. -/
def reconstructColor (x y : ℕ) : QColor :=
  (((x &&& 0xFF : ℕ) : ℚ) / 255,
   ((y &&& 0xFF : ℕ) : ℚ) / 255,
   ((((x >>> 8) &&& 0xF) ||| (((y >>> 8) &&& 0xF) <<< 4) : ℕ) : ℚ) / 255)

/-- Body of the LUT `from_fn` closure: nearest texel to the reconstructed
color, encoded as `(fg, bg, glyph_index, 255)`.  The `none` branch is the
point where the Rust `.unwrap()` panics (empty texel set). -/
def lutPixel (a : ANSIfier) (x y : ℕ) : RGBA :=
  match nearest a.texels (reconstructColor x y) with
  | some e =>
    (e.2.foreground_color, e.2.background_color,
     charIdx (a.blocks.blocks.map Prod.fst) e.2.block, 255)
  | none => default

/-- The 4096×4096 LUT texture. -/
def lutImage (a : ANSIfier) : Image RGBA :=
  Image.fromFn RGBA 4096 4096 (lutPixel a)

/-- The `bits` accumulation loop for one glyph: `x` outer, `y` inner,
`bits |= (block[y][x] as u32) << (x + y * width)`. -/
def glyphMask (w h : ℕ) (bitmap : List (List Bool)) : ℕ :=
  (List.range w).foldl (fun bits x =>
    (List.range h).foldl (fun bits y =>
      bits ||| ((if (bitmap.getD y []).getD x false then 1 else 0)
        <<< (x + y * w))) bits) 0

/-- Splitting a 32-bit mask into its four bytes, least significant first,
as the R,G,B,A channels. -/
def byteSplit (bits : ℕ) : RGBA :=
  (bits &&& 0xFF, (bits >>> 8) &&& 0xFF, (bits >>> 16) &&& 0xFF,
   (bits >>> 24) % 256)

/-- The bitmap of the glyph at position `j` of the iteration order
(`idx_to_char[j]` followed by the map lookup `blocks[&c]`). -/
def glyphBitmapAt (b : Blocks) (j : ℕ) : List (List Bool) :=
  ((b.blocks.lookup ((b.blocks.map Prod.fst).getD j default)).getD [])

/-- The pixel written at row 0, column `x` of the map texture: palette
color `x` with alpha 255. -/
def paletteRowPixel (a : ANSIfier) (x : ℕ) : RGBA :=
  ((a.palette.colors.getD x default).1,
   (a.palette.colors.getD x default).2.1,
   (a.palette.colors.getD x default).2.2, 255)

/-- The pixel written at row 1, column `j` of the map texture: the
byte-split packed coverage mask of glyph `j`. -/
def maskRowPixel (a : ANSIfier) (j : ℕ) : RGBA :=
  byteSplit (glyphMask a.blocks.width a.blocks.height (glyphBitmapAt a.blocks j))

/-- The writes of the map-texture loops: row 0 gets the palette colors
(alpha 255), row 1 the byte-split coverage masks, in loop order. -/
def mapWrites (a : ANSIfier) : List ((ℕ × ℕ) × RGBA) :=
  (List.range a.palette.colors.length).map (fun x => ((x, 0), paletteRowPixel a x))
  ++ (List.range a.blocks.blocks.length).map (fun j => ((j, 1), maskRowPixel a j))

/-- The 256×2 map texture: zero image plus the two write loops. -/
def mapImage (a : ANSIfier) : Image RGBA :=
  (Image.mk0 RGBA 256 2).writeAll (mapWrites a)

/-- `generate_lut_and_map`: the three capacity `assert!`s, then the LUT
and map textures.  A failed assertion aborts the process.  When the
asserts pass but the texel set is empty, the first LUT query
`self.kdtree.nearest(...).unwrap()` receives `None` and panics, so the
function aborts before producing anything; `nearest` returns `none`
exactly on the empty texel set, so that panic is modelled by the inner
emptiness test. -/
def generateLutAndMap (a : ANSIfier) : Outcome (Image RGBA × Image RGBA) :=
  if a.palette.colors.length ≤ 256 ∧ a.blocks.blocks.length ≤ 256 ∧
      a.blocks.width * a.blocks.height ≤ 32 then
    if a.texels = [] then .abort
    else .ok (lutImage a, mapImage a)
  else .abort

/-! ## Parallel GPU table generation (`par_generate_lut_and_map`)

The rayon `for_each` loops perform the same per-address computations and
write each to a distinct pixel behind a mutex; the execution order is
scheduler-chosen.  The model takes the three execution orders as explicit
schedule arguments; the equivalence theorem quantifies over all schedules
that are permutations of the canonical address lists. -/

/-- The canonical LUT address list, `x` outer as in the nested
`into_par_iter` loops. -/
def lutAddresses : List (ℕ × ℕ) :=
  (List.range 4096).flatMap (fun x => (List.range 4096).map (fun y => (x, y)))

/-- `par_generate_lut_and_map`: same asserts; LUT built by writing
`lutPixel` at every address of `schedLut` into a fresh zero image; map
rows written in the orders `sched0`, `sched1`.  On an empty texel set
every worker's `nearest(...).unwrap()` panics and rayon propagates the
panic, so the function aborts exactly as the sequential one does; the
inner emptiness test models that. -/
def parGenerateLutAndMap (a : ANSIfier) (schedLut : List (ℕ × ℕ))
    (sched0 sched1 : List ℕ) : Outcome (Image RGBA × Image RGBA) :=
  if a.palette.colors.length ≤ 256 ∧ a.blocks.blocks.length ≤ 256 ∧
      a.blocks.width * a.blocks.height ≤ 32 then
    if a.texels = [] then .abort
    else
      .ok ((Image.mk0 RGBA 4096 4096).writeAll
             (schedLut.map (fun p => (p, lutPixel a p.1 p.2))),
           (Image.mk0 RGBA 256 2).writeAll
             ((sched0.map (fun x => ((x, 0), paletteRowPixel a x)))
              ++ (sched1.map (fun j => ((j, 1), maskRowPixel a j)))))
  else .abort

/-! ## Quantizer/Renderer -/

/-- The per-pixel nearest-texel lookup of `process` (the `none` branch is
the Rust `.unwrap()` panic on an empty texel set). -/
def pixelTexel (a : ANSIfier) (p : Color) : Texel :=
  match nearest a.texels (normalizeColor p) with
  | some e => e.2
  | none => default

/-- Bitmap cell of a glyph: `blocks.blocks[&c][j][i]`. -/
def blockBit (b : Blocks) (c : Char) (j i : ℕ) : Bool :=
  (((b.blocks.lookup c).getD []).getD j []).getD i false

/-- The pixel writes of `process`'s main loop (the ANSI-escaped text
stream built alongside is not modelled; no claim constrains it): for each
source pixel, paint its `width × height` block with the nearest texel's
foreground color where the glyph bitmap is set, background elsewhere.
Palette indexing `colors[id as usize]` is `getD` (in bounds whenever
`id < colors.length`, which construction guarantees). -/
def processWrites (a : ANSIfier) (img : Image Color) : List ((ℕ × ℕ) × Color) :=
  (List.range img.height).flatMap (fun y =>
    (List.range img.width).flatMap (fun x =>
      (List.range a.blocks.width).flatMap (fun i =>
        (List.range a.blocks.height).map (fun j =>
          ((x * a.blocks.width + i, y * a.blocks.height + j),
           if blockBit a.blocks (pixelTexel a (img.pix x y)).block j i then
             a.palette.colors.getD (pixelTexel a (img.pix x y)).foreground_color default
           else
             a.palette.colors.getD (pixelTexel a (img.pix x y)).background_color default)))))

/-- The output raster of `ANSIfier::process`: a zero image of size
`(W*cell_width, H*cell_height)` receiving all block writes. -/
def processImage (a : ANSIfier) (img : Image Color) : Image Color :=
  (Image.mk0 Color (img.width * a.blocks.width) (img.height * a.blocks.height)).writeAll
    (processWrites a img)

/-- Truncation toward zero of a rational to an unsigned integer (`as u32`
on a non-negative value; negatives saturate to 0 as in Rust). -/
def ratTrunc (q : ℚ) : ℕ :=
  q.num.toNat / q.den

/-- `calculate_new_dimensions`: aspect in glyph-cell units, then the four
requested-size cases; `f32` arithmetic idealized as exact rationals. -/
def calculateNewDimensions (a : ANSIfier) (original : ℕ × ℕ)
    (desired : Option ℕ × Option ℕ) : ℕ × ℕ :=
  let aspect : ℚ :=
    ((original.1 : ℚ) / (a.blocks.width : ℚ)) /
      ((original.2 : ℚ) / (a.blocks.height : ℚ))
  match desired with
  | (none, none) => original
  | (some w, none) => (w, ratTrunc ((w : ℚ) / aspect))
  | (none, some h) => (ratTrunc ((h : ℚ) * aspect), h)
  | (some w, some h) => (w, h)

/-! ## Concrete inputs used by witnesses and counterexamples -/

/-- A one-color palette. -/
def paletteOne : Palette := ⟨[(0, 0, 0)]⟩

/-- Two pairwise-distinct colors. -/
def paletteBW : Palette := ⟨[(0, 0, 0), (255, 255, 255)]⟩

/-- Two *equal* colors: the claimed pair count fails here. -/
def paletteDup : Palette := ⟨[(7, 7, 7), (7, 7, 7)]⟩

/-- 257 colors: one more than fits an 8-bit id. -/
def palette257 : Palette := ⟨List.replicate 257 (0, 0, 0)⟩

/-- A 1×1 cell with a single full-coverage glyph. -/
def blocksOne : Blocks := ⟨1, 1, [('a', [[true]])]⟩

/-- A 1×2 cell with a single half-coverage glyph (cover 1/2). -/
def blocksHalf : Blocks := ⟨1, 2, [('a', [[true], [false]])]⟩

/-- A 1×1 cell with a single empty-coverage glyph (cover 0). -/
def blocksEmpty : Blocks := ⟨1, 1, [('a', [[false]])]⟩

/-- A malformed glyph set: the bitmap has 1 row but `height` is 2. -/
def badBlocks : Blocks := ⟨1, 2, [('a', [[true]])]⟩

/-- Cell area 33 > 32: over the GPU bit-packing capacity. -/
def blocksWide : Blocks := ⟨33, 1, []⟩

/-- Cell area exactly 32, with one full-coverage glyph (the texel set is
non-empty, so GPU table generation actually completes). -/
def blocksArea32 : Blocks := ⟨8, 4, [('a', List.replicate 4 (List.replicate 8 true))]⟩

/-- Cell area exactly 32 but no glyphs at all: the capacity asserts pass
and the first nearest-neighbour query then panics on the empty tree. -/
def blocksEmpty32 : Blocks := ⟨8, 4, []⟩

/-- 2×4 cell, as in the spec's dimension example. -/
def blocks24 : Blocks := ⟨2, 4, []⟩

def engineOne : ANSIfier := ansifierNew paletteOne blocksOne
def engineWide : ANSIfier := ansifierNew paletteOne blocksWide
def engineArea32 : ANSIfier := ansifierNew paletteOne blocksArea32
def engineEmpty32 : ANSIfier := ansifierNew paletteOne blocksEmpty32
def engine24 : ANSIfier := ansifierNew paletteOne blocks24

/-- A 1×1 source image with one grey pixel. -/
def imgOne : Image Color := ⟨1, 1, fun _ _ => (10, 20, 30)⟩

/-! ## Helper lemmas -/

theorem Image.ext' {Pix : Type} {a b : Image Pix} (hw : a.width = b.width)
    (hh : a.height = b.height) (hp : a.pix = b.pix) : a = b := by
  cases a; cases b; simp_all

theorem Image.put_width {Pix : Type} (img : Image Pix) (x y : ℕ) (p : Pix) :
    (img.put x y p).width = img.width := rfl

theorem Image.put_height {Pix : Type} (img : Image Pix) (x y : ℕ) (p : Pix) :
    (img.put x y p).height = img.height := rfl

theorem Image.writeAll_width {Pix : Type} (ws : List ((ℕ × ℕ) × Pix))
    (img : Image Pix) : (img.writeAll ws).width = img.width := by
  induction ws generalizing img with
  | nil => rfl
  | cons w ws ih => exact (ih _).trans rfl

theorem Image.writeAll_height {Pix : Type} (ws : List ((ℕ × ℕ) × Pix))
    (img : Image Pix) : (img.writeAll ws).height = img.height := by
  induction ws generalizing img with
  | nil => rfl
  | cons w ws ih => exact (ih _).trans rfl

/-- The value at `(u, v)` after a sequence of writes all of whose writes at
key `(u, v)` carry the value `F`: it is `F` if some write hits `(u, v)`,
the original pixel otherwise. -/
theorem Image.writeAll_pix {Pix : Type} (ws : List ((ℕ × ℕ) × Pix))
    (img : Image Pix) (u v : ℕ) (F : Pix)
    (hval : ∀ q ∈ ws, q.1 = (u, v) → q.2 = F) :
    (img.writeAll ws).pix u v =
      if (u, v) ∈ ws.map Prod.fst then F else img.pix u v := by
  induction ws generalizing img with
  | nil => simp [Image.writeAll]
  | cons w ws ih =>
    have hstep : (img.writeAll (w :: ws)) = ((img.put w.1.1 w.1.2 w.2).writeAll ws) := rfl
    rw [hstep, ih _ (fun q hq => hval q (List.mem_cons_of_mem _ hq))]
    by_cases hk : w.1 = (u, v)
    · have hv : w.2 = F := hval w (List.mem_cons_self _ _) hk
      have hu : u = w.1.1 := (congrArg Prod.fst hk).symm
      have hvv : v = w.1.2 := (congrArg Prod.snd hk).symm
      have hput : (img.put w.1.1 w.1.2 w.2).pix u v = F := by
        simp [Image.put, hu, hvv, hv]
      rw [hput]
      simp [hk]
    · have hput : (img.put w.1.1 w.1.2 w.2).pix u v = img.pix u v := by
        simp only [Image.put]
        have : ¬(u = w.1.1 ∧ v = w.1.2) := by
          intro ⟨h1, h2⟩
          exact hk (Prod.ext h1.symm h2.symm)
        simp [this]
      rw [hput]
      have : ((u, v) ∈ (w :: ws).map Prod.fst) ↔ ((u, v) ∈ ws.map Prod.fst) := by
        simp only [List.map_cons, List.mem_cons]
        constructor
        · rintro (h | h)
          · exact absurd h.symm hk
          · exact h
        · exact Or.inr
      rw [if_congr this rfl rfl]

/-- Euclidean-division uniqueness for block coordinates: a cell-local
offset below the cell size determines the cell and the offset. -/
theorem block_coord_inj {w x i x' i' : ℕ} (hi : i < w) (hi' : i' < w)
    (h : x * w + i = x' * w + i') : x = x' ∧ i = i' := by
  have hw : 0 < w := Nat.pos_of_ne_zero (by rintro rfl; exact Nat.not_lt_zero i hi)
  constructor
  · have h1 : (x * w + i) / w = x := by
      rw [Nat.mul_comm, Nat.mul_add_div hw, Nat.div_eq_of_lt hi, Nat.add_zero]
    have h2 : (x' * w + i') / w = x' := by
      rw [Nat.mul_comm, Nat.mul_add_div hw, Nat.div_eq_of_lt hi', Nat.add_zero]
    rw [← h1, ← h2, h]
  · have h1 : (x * w + i) % w = i := by
      rw [Nat.add_comm, Nat.add_mul_mod_self_right, Nat.mod_eq_of_lt hi]
    have h2 : (x' * w + i') % w = i' := by
      rw [Nat.add_comm, Nat.add_mul_mod_self_right, Nat.mod_eq_of_lt hi']
    rw [← h1, ← h2, h]

/-- `getD` of a map over `List.range` evaluates the function. -/
theorem getD_map_range {β : Type} [Inhabited β] (f : ℕ → β) {n i : ℕ}
    (h : i < n) : ((List.range n).map f).getD i default = f i := by
  rw [List.getD_eq_getElem?_getD, List.getElem?_map, List.getElem?_range h]
  rfl

/-- `testBit` distributes over a left fold of bitwise ORs. -/
theorem testBit_foldl_or {α : Type} (l : List α) (f : α → ℕ) (b : ℕ)
    (pos : ℕ) :
    (l.foldl (fun acc t => acc ||| f t) b).testBit pos =
      (b.testBit pos || l.any (fun t => (f t).testBit pos)) := by
  induction l generalizing b with
  | nil => simp
  | cons t l ih =>
    simp only [List.foldl_cons, List.any_cons]
    rw [ih, Nat.testBit_or, Bool.or_assoc]

/-- `testBit` of a single shifted boolean bit. -/
theorem testBit_bool_shift (bit : Bool) (s pos : ℕ) :
    ((if bit then 1 else 0) <<< s : ℕ).testBit pos = (bit && decide (pos = s)) := by
  cases bit with
  | false => simp [Nat.zero_shiftLeft]
  | true =>
    simp only [if_true, Nat.one_shiftLeft, Nat.testBit_two_pow, Bool.true_and]
    by_cases h : s = pos <;> simp [h, eq_comm]

theorem testBit_glyphMask_aux (w h : ℕ) (bitmap : List (List Bool))
    (xs : List ℕ) (b pos : ℕ) :
    ((xs.foldl (fun bits x => (List.range h).foldl (fun bits y =>
        bits ||| ((if (bitmap.getD y []).getD x false then 1 else 0)
          <<< (x + y * w))) bits) b).testBit pos) =
      (b.testBit pos || xs.any (fun x => (List.range h).any (fun y =>
        (bitmap.getD y []).getD x false && decide (pos = x + y * w)))) := by
  induction xs generalizing b with
  | nil => simp
  | cons x xs ih =>
    simp only [List.foldl_cons, List.any_cons]
    rw [ih, testBit_foldl_or]
    simp only [testBit_bool_shift]
    rw [Bool.or_assoc]

/-- Bit characterization of the glyph mask accumulation loop. -/
theorem testBit_glyphMask (w h : ℕ) (bitmap : List (List Bool)) (pos : ℕ) :
    (glyphMask w h bitmap).testBit pos =
      (List.range w).any (fun x => (List.range h).any (fun y =>
        (bitmap.getD y []).getD x false && decide (pos = x + y * w))) := by
  unfold glyphMask
  rw [testBit_glyphMask_aux]
  simp

/-- At an in-cell position `i + k * w`, the glyph mask bit is exactly the
bitmap cell at column `i`, row `k`. -/
theorem testBit_glyphMask_in_cell {w h : ℕ} (bitmap : List (List Bool))
    {i k : ℕ} (hi : i < w) (hk : k < h) :
    (glyphMask w h bitmap).testBit (i + k * w) =
      (bitmap.getD k []).getD i false := by
  rw [testBit_glyphMask]
  cases hbit : (bitmap.getD k []).getD i false with
  | true =>
    rw [List.any_eq_true]
    refine ⟨i, List.mem_range.mpr hi, ?_⟩
    rw [List.any_eq_true]
    refine ⟨k, List.mem_range.mpr hk, ?_⟩
    rw [hbit]
    simp
  | false =>
    rw [List.any_eq_false]
    intro x hx
    rw [List.any_eq_true]
    rintro ⟨y, hy, hQ⟩
    rw [Bool.and_eq_true] at hQ
    obtain ⟨hb, hd⟩ := hQ
    have hpos : k * w + i = y * w + x := by
      have : i + k * w = x + y * w := of_decide_eq_true hd
      omega
    obtain ⟨hky, hix⟩ := block_coord_inj hi (List.mem_range.mp hx) hpos
    subst hky
    subst hix
    rw [hbit] at hb
    exact Bool.false_ne_true hb

/-- The mask has no bits at or above the cell area. -/
theorem testBit_glyphMask_high {w h : ℕ} (bitmap : List (List Bool))
    {pos : ℕ} (hpos : w * h ≤ pos) :
    (glyphMask w h bitmap).testBit pos = false := by
  rw [testBit_glyphMask, List.any_eq_false]
  intro x hx
  rw [List.any_eq_true]
  rintro ⟨y, hy, hQ⟩
  rw [Bool.and_eq_true] at hQ
  have hpe : pos = x + y * w := of_decide_eq_true hQ.2
  have hx' := List.mem_range.mp hx
  have hy' := List.mem_range.mp hy
  have hlt : x + y * w < w * h := by
    calc x + y * w < w + y * w := by omega
    _ = (y + 1) * w := by ring
    _ ≤ h * w := Nat.mul_le_mul_right w hy'
    _ = w * h := Nat.mul_comm h w
  omega

/-- An in-range `getD` is a member of the list. -/
theorem getD_mem_of_lt {β : Type} {l : List β} {j : ℕ} (d : β)
    (h : j < l.length) : l.getD j d ∈ l := by
  rw [List.getD_eq_getElem?_getD, List.getElem?_eq_getElem h]
  exact List.getElem_mem h

/-- In an association list with pairwise-distinct keys (the `BTreeMap`
invariant), looking up the `j`-th key returns the `j`-th value. -/
theorem lookup_key_at {β : Type} [Inhabited β] :
    ∀ (l : List (Char × β)), (l.map Prod.fst).Nodup →
      ∀ j, j < l.length →
        l.lookup ((l.map Prod.fst).getD j default) = some (l.getD j default).2
  | [], _, j, hj => absurd hj (by simp)
  | (k, v) :: rest, hnd, 0, hj => by
    simp [List.lookup_cons]
  | (k, v) :: rest, hnd, j + 1, hj => by
    have hj' : j < rest.length := by simpa using hj
    have hmem : (rest.map Prod.fst).getD j default ∈ rest.map Prod.fst :=
      getD_mem_of_lt default (by simpa using hj')
    have hnotin : k ∉ rest.map Prod.fst :=
      (List.nodup_cons.mp (by simpa using hnd)).1
    have hk : k ≠ (rest.map Prod.fst).getD j default := by
      intro hcontra
      exact hnotin (hcontra ▸ hmem)
    have hnd' : (rest.map Prod.fst).Nodup :=
      (List.nodup_cons.mp (by simpa using hnd)).2
    have ih := lookup_key_at rest hnd' j hj'
    simp only [List.map_cons, List.getD_cons_succ, List.lookup_cons]
    rw [show (((rest.map Prod.fst).getD j default == k)) = false from
      beq_eq_false_iff_ne.mpr (fun h => hk h.symm)]
    exact ih

/-- Membership in the canonical LUT address list. -/
theorem mem_lutAddresses {u v : ℕ} :
    (u, v) ∈ lutAddresses ↔ u < 4096 ∧ v < 4096 := by
  unfold lutAddresses
  rw [List.mem_flatMap]
  constructor
  · rintro ⟨x, hx, hmem⟩
    rw [List.mem_map] at hmem
    obtain ⟨y, hy, hxy⟩ := hmem
    obtain ⟨rfl, rfl⟩ := Prod.mk.injEq .. ▸ hxy
    · exact ⟨List.mem_range.mp hx, List.mem_range.mp hy⟩
  · rintro ⟨hu, hv⟩
    exact ⟨u, List.mem_range.mpr hu,
      List.mem_map.mpr ⟨v, List.mem_range.mpr hv, rfl⟩⟩

/-- Pointwise contents after the two map-texture write loops, for any
execution orders `s0`, `s1` of the two loops. -/
theorem mapRows_writeAll_pix (a : ANSIfier) (s0 s1 : List ℕ)
    (img : Image RGBA) (u v : ℕ) :
    (img.writeAll ((s0.map (fun x => ((x, 0), paletteRowPixel a x)))
        ++ (s1.map (fun j => ((j, 1), maskRowPixel a j))))).pix u v =
      (if v = 1 ∧ u ∈ s1 then maskRowPixel a u
      else if v = 0 ∧ u ∈ s0 then paletteRowPixel a u
      else img.pix u v) := by
  have hsplit : img.writeAll ((s0.map (fun x => ((x, 0), paletteRowPixel a x)))
      ++ (s1.map (fun j => ((j, 1), maskRowPixel a j)))) =
      (img.writeAll (s0.map (fun x => ((x, 0), paletteRowPixel a x)))).writeAll
        (s1.map (fun j => ((j, 1), maskRowPixel a j))) := by
    unfold Image.writeAll
    exact List.foldl_append ..
  rw [hsplit]
  rw [Image.writeAll_pix _ _ u v (maskRowPixel a u) (by
    intro q hq hkey
    rw [List.mem_map] at hq
    obtain ⟨j, hj, rfl⟩ := hq
    simp only [Prod.mk.injEq] at hkey
    obtain ⟨rfl, _⟩ := hkey
    rfl)]
  rw [Image.writeAll_pix _ _ u v (paletteRowPixel a u) (by
    intro q hq hkey
    rw [List.mem_map] at hq
    obtain ⟨x, hx, rfl⟩ := hq
    simp only [Prod.mk.injEq] at hkey
    obtain ⟨rfl, _⟩ := hkey
    rfl)]
  have hkeys1 : ((u, v) ∈ (s1.map (fun j => ((j, 1), maskRowPixel a j))).map Prod.fst)
      ↔ (v = 1 ∧ u ∈ s1) := by
    rw [List.map_map]
    constructor
    · intro h
      rw [List.mem_map] at h
      obtain ⟨j, hj, hkey⟩ := h
      simp only [Function.comp_apply, Prod.mk.injEq] at hkey
      exact ⟨hkey.2.symm, hkey.1 ▸ hj⟩
    · rintro ⟨rfl, hu⟩
      rw [List.mem_map]
      exact ⟨u, hu, rfl⟩
  have hkeys0 : ((u, v) ∈ (s0.map (fun x => ((x, 0), paletteRowPixel a x))).map Prod.fst)
      ↔ (v = 0 ∧ u ∈ s0) := by
    rw [List.map_map]
    constructor
    · intro h
      rw [List.mem_map] at h
      obtain ⟨x, hx, hkey⟩ := h
      simp only [Function.comp_apply, Prod.mk.injEq] at hkey
      exact ⟨hkey.2.symm, hkey.1 ▸ hx⟩
    · rintro ⟨rfl, hu⟩
      rw [List.mem_map]
      exact ⟨u, hu, rfl⟩
  rw [if_congr hkeys1 rfl (if_congr hkeys0 rfl rfl)]

/-- Pointwise contents after the parallel LUT write loop, for any
execution order `sched`. -/
theorem lutWrites_writeAll_pix (a : ANSIfier) (sched : List (ℕ × ℕ))
    (img : Image RGBA) (u v : ℕ) :
    (img.writeAll (sched.map (fun p => (p, lutPixel a p.1 p.2)))).pix u v =
      (if (u, v) ∈ sched then lutPixel a u v else img.pix u v) := by
  rw [Image.writeAll_pix _ _ u v (lutPixel a u v) (by
    intro q hq hkey
    rw [List.mem_map] at hq
    obtain ⟨p, hp, rfl⟩ := hq
    have hp' : p = (u, v) := hkey
    rw [hp'])]
  have hkeys : ((u, v) ∈ (sched.map (fun p => (p, lutPixel a p.1 p.2))).map Prod.fst)
      ↔ ((u, v) ∈ sched) := by
    rw [List.map_map]
    constructor
    · intro h
      rw [List.mem_map] at h
      obtain ⟨p, hp, hkey⟩ := h
      simpa [← hkey] using hp
    · intro h
      rw [List.mem_map]
      exact ⟨(u, v), h, rfl⟩
  rw [if_congr hkeys rfl rfl]

/-- In-range `getD` equals `getElem`. -/
theorem getD_eq_getElem_of_lt {β : Type} {l : List β} {i : ℕ} (d : β)
    (h : i < l.length) : l.getD i d = l[i] := by
  rw [List.getD_eq_getElem?_getD, List.getElem?_eq_getElem h]
  rfl

/-- Under `Nodup`, in-range `getD` values agree exactly on equal indices. -/
theorem getD_inj_iff_of_nodup {β : Type} {l : List β} (hnd : l.Nodup)
    {i j : ℕ} (d : β) (hi : i < l.length) (hj : j < l.length) :
    l.getD i d = l.getD j d ↔ i = j := by
  rw [getD_eq_getElem_of_lt d hi, getD_eq_getElem_of_lt d hj]
  exact hnd.getElem_inj_iff

/-- Length of the one-index-excluding `filterMap` over a range. -/
theorem length_filterMap_range_ne {β : Type} (g : ℕ → β) :
    ∀ n i : ℕ,
      ((List.range n).filterMap (fun j => if i = j then none else some (g j))).length
        = if i < n then n - 1 else n := by
  intro n
  induction n with
  | zero => intro i; simp
  | succ n ih =>
    intro i
    rw [List.range_succ, List.filterMap_append, List.length_append, ih i]
    by_cases h1 : i = n
    · subst h1
      simp
    · have hfm : (List.filterMap (fun j => if i = j then none else some (g j)) [n]).length = 1 := by
        simp [List.filterMap, h1]
      rw [hfm]
      by_cases h2 : i < n
      · rw [if_pos h2, if_pos (by omega)]
        omega
      · rw [if_neg h2, if_neg (by omega)]

/-! ## Claim C3 -/

/-- C3 counterexample: on a glyph set whose bitmap has 1 row against a
declared height of 2, `Blocks::from` aborts the process (assertion
failure); it does not return a typed `ValidationError` — no typed error
path exists in construction. -/
theorem c3_counterexample_abort : blocksFrom badBlocks = Outcome.abort := by
  decide

/-- C3 (amended): engine construction never returns a typed failure.
`Blocks::from` aborts via `assert!` exactly when some glyph bitmap's row
count or row length disagrees with the declared cell size, and returns the
glyph set unchanged otherwise; `ANSIfier::new` is infallible and performs
no emptiness validation at all. -/
theorem c3_construction_no_typed_errors (b : Blocks) :
    ((¬ ∀ pr ∈ b.blocks, pr.2.length = b.height ∧ ∀ row ∈ pr.2, row.length = b.width) →
      blocksFrom b = Outcome.abort) ∧
    ((∀ pr ∈ b.blocks, pr.2.length = b.height ∧ ∀ row ∈ pr.2, row.length = b.width) →
      blocksFrom b = Outcome.ok b) ∧
    (∀ p : Palette, ansifierNew p b = ⟨p, b, ansifierTexels p.colors b⟩) := by
  have hiff : blocksValid b = true ↔
      (∀ pr ∈ b.blocks, pr.2.length = b.height ∧ ∀ row ∈ pr.2, row.length = b.width) := by
    unfold blocksValid
    simp [List.all_eq_true]
  refine ⟨?_, ?_, fun p => rfl⟩
  · intro hbad
    unfold blocksFrom
    rw [if_neg (fun hv => hbad (hiff.mp hv))]
  · intro hgood
    unfold blocksFrom
    rw [if_pos (hiff.mpr hgood)]

/-- C3 witness: the amended theorem applied at a malformed and at a
well-formed concrete glyph set. -/
theorem c3_witness_concrete :
    blocksFrom badBlocks = Outcome.abort ∧ blocksFrom blocksOne = Outcome.ok blocksOne :=
  ⟨(c3_construction_no_typed_errors badBlocks).1 (by decide),
   (c3_construction_no_typed_errors blocksOne).2.1 (by decide)⟩

/-! ## Claim C4 -/

/-- C4 counterexample: with cell area 33 > 32, `generate_lut_and_map`
aborts the process (assertion failure); it does not return a typed
`CapacityExceededError` — no such error type exists. -/
theorem c4_counterexample_abort : generateLutAndMap engineWide = Outcome.abort := by
  rfl

/-- C4 (amended): `generate_lut_and_map` aborts via assertion whenever
`cell_width * cell_height > 32`; when the area is exactly 32 and the
palette and glyph-count limits hold it passes its capacity asserts and —
provided the texel set is non-empty — produces the LUT and map textures;
with an empty texel set (e.g. zero glyphs) it passes the asserts and then
aborts at the first nearest-neighbour `.unwrap()` of the LUT pass.  In no
case does it return a typed `CapacityExceededError`. -/
theorem c4_capacity_asserts (a : ANSIfier) :
    (32 < a.blocks.width * a.blocks.height → generateLutAndMap a = Outcome.abort) ∧
    (a.palette.colors.length ≤ 256 → a.blocks.blocks.length ≤ 256 →
      a.blocks.width * a.blocks.height = 32 → a.texels ≠ [] →
      generateLutAndMap a = Outcome.ok (lutImage a, mapImage a)) ∧
    (a.palette.colors.length ≤ 256 → a.blocks.blocks.length ≤ 256 →
      a.blocks.width * a.blocks.height = 32 → a.texels = [] →
      generateLutAndMap a = Outcome.abort) := by
  refine ⟨?_, ?_, ?_⟩
  · intro hbig
    unfold generateLutAndMap
    rw [if_neg (by omega)]
  · intro h1 h2 h3 hne
    unfold generateLutAndMap
    rw [if_pos ⟨h1, h2, by omega⟩, if_neg hne]
  · intro h1 h2 h3 hemp
    unfold generateLutAndMap
    rw [if_pos ⟨h1, h2, by omega⟩, if_pos hemp]

/-- Evaluation of the single texel of the one-color engine with the
8×4 full-coverage glyph (cell area exactly 32). -/
theorem engineArea32_texels :
    engineArea32.texels = [(normalizeColor ((0, 0, 0) : Color), ⟨0, 0, 'a'⟩)] := by
  show ansifierTexels paletteOne.colors blocksArea32 = _
  have hcount : countForegroundPixels (List.replicate 4 (List.replicate 8 true)) = 32 := by
    decide
  have hsh : mkShades blocksArea32 = [⟨1, 'a'⟩] := by
    unfold mkShades blocksArea32
    rw [List.map_cons, List.map_nil, hcount]
    norm_num
  rw [ansifierTexels, hsh]
  have hsingle : ([(⟨1, 'a'⟩ : Shade)].flatMap (texelsForShade paletteOne.colors)) =
      texelsForShade paletteOne.colors ⟨1, 'a'⟩ := by simp
  rw [hsingle]
  unfold texelsForShade
  rw [if_neg (by norm_num), if_pos rfl]
  simp [List.range_succ, paletteOne]

/-- C4 witness: the amended theorem applied at a cell area of 33 (abort
in the asserts), at a cell area of exactly 32 with one glyph (success),
and at a cell area of exactly 32 with no glyphs (abort at the first
nearest-neighbour query). -/
theorem c4_witness_concrete :
    generateLutAndMap engineWide = Outcome.abort ∧
    generateLutAndMap engineArea32 = Outcome.ok (lutImage engineArea32, mapImage engineArea32) ∧
    generateLutAndMap engineEmpty32 = Outcome.abort :=
  ⟨(c4_capacity_asserts engineWide).1 (by decide),
   (c4_capacity_asserts engineArea32).2.1 (by decide) (by decide) (by decide)
     (by rw [engineArea32_texels]; simp),
   (c4_capacity_asserts engineEmpty32).2.2 (by decide) (by decide) (by decide) rfl⟩

/-! ## Claim C7 -/

/-- C7: with a requested width and no requested height,
`calculate_new_dimensions` keeps the width and truncates toward zero the
width divided by the glyph-cell-adjusted aspect `(ow/cw)/(oh/ch)`
(`f32` arithmetic idealized as exact rationals). -/
theorem c7_dimensions_width_only (a : ANSIfier) (ow oh w : ℕ)
    (how : 0 < ow) (hoh : 0 < oh) (hcw : 0 < a.blocks.width)
    (hch : 0 < a.blocks.height) :
    calculateNewDimensions a (ow, oh) (some w, none) =
      (w, ratTrunc ((w : ℚ) /
        (((ow : ℚ) / (a.blocks.width : ℚ)) / ((oh : ℚ) / (a.blocks.height : ℚ))))) :=
  rfl

/-- C7 witness: for original (800, 600), requested (Some 80, None) and
cell (2, 4), the result is (80, 30) — the truncation of 80 / (8/3). -/
theorem c7_witness_800x600 :
    calculateNewDimensions engine24 (800, 600) (some 80, none) = (80, 30) := by
  rw [c7_dimensions_width_only engine24 800 600 80 (by decide) (by decide)
    (by decide) (by decide)]
  have hw : (engine24.blocks.width : ℚ) = 2 := by norm_num [engine24, ansifierNew, blocks24]
  have hh : (engine24.blocks.height : ℚ) = 4 := by norm_num [engine24, ansifierNew, blocks24]
  rw [hw, hh]
  have h30 : ((80 : ℕ) : ℚ) / (((800 : ℕ) : ℚ) / 2 / (((600 : ℕ) : ℚ) / 4)) = 30 := by
    norm_num
  rw [h30]
  have htr : ratTrunc 30 = 30 := by
    unfold ratTrunc
    norm_num
    decide
  rw [htr]

/-! ## Claim C10 -/

/-- Every texel id produced by texel generation is below the palette
length (auxiliary form shared by the C10 theorem and counterexample). -/
theorem texel_ids_lt_length (colors : List Color) (b : Blocks)
    (e : QColor × Texel) (he : e ∈ ansifierTexels colors b) :
    e.2.foreground_color < colors.length ∧ e.2.background_color < colors.length := by
  unfold ansifierTexels at he
  rw [List.mem_flatMap] at he
  obtain ⟨s, hs, he⟩ := he
  unfold texelsForShade at he
  by_cases h0 : s.cover = 0
  · rw [if_pos h0, List.mem_map] at he
    obtain ⟨i, hi, rfl⟩ := he
    have hi' := List.mem_range.mp hi
    refine ⟨?_, ?_⟩
    · show 0 % 256 < colors.length
      omega
    · show i % 256 < colors.length
      have := Nat.mod_le i 256
      omega
  · rw [if_neg h0] at he
    by_cases h1 : s.cover = 1
    · rw [if_pos h1, List.mem_map] at he
      obtain ⟨i, hi, rfl⟩ := he
      have hi' := List.mem_range.mp hi
      refine ⟨?_, ?_⟩
      · show i % 256 < colors.length
        have := Nat.mod_le i 256
        omega
      · show 0 % 256 < colors.length
        omega
    · rw [if_neg h1, List.mem_flatMap] at he
      obtain ⟨i, hi, he⟩ := he
      rw [List.mem_filterMap] at he
      obtain ⟨j, hj, hfj⟩ := he
      have hi' := List.mem_range.mp hi
      have hj' := List.mem_range.mp hj
      by_cases hc : colors.getD i default = colors.getD j default
      · rw [if_pos hc] at hfj
        exact absurd hfj (by simp)
      · rw [if_neg hc] at hfj
        have he' := Option.some.inj hfj
        rw [← he']
        refine ⟨?_, ?_⟩
        · show i % 256 < colors.length
          have := Nat.mod_le i 256
          omega
        · show j % 256 < colors.length
          have := Nat.mod_le j 256
          omega

/-- C10 (amended): for *every* palette, each texel produced by engine
construction has foreground and background ids strictly below
`palette.len()` — the ids are stored 8-bit-truncated (`i % 256 ≤ i`), so
even for palettes larger than 256 colors the bound still holds (the
truncated id is wrong but never out of bounds), and the palette indexing
performed by `process` is always in bounds. -/
theorem c10_texel_ids_in_bounds (colors : List Color) (b : Blocks)
    (e : QColor × Texel) (he : e ∈ ansifierTexels colors b) :
    e.2.foreground_color < colors.length ∧ e.2.background_color < colors.length :=
  texel_ids_lt_length colors b e he

/-- C10 counterexample to the final clause of the original claim: a
palette of 257 colors on which every texel id is still strictly below the
palette length (8-bit truncation keeps ids below 256 < 257, so the bound
does not fail for palettes larger than 256 colors). -/
theorem c10_counterexample_large_palette :
    256 < palette257.colors.length ∧
    (ansifierTexels palette257.colors blocksEmpty).all
      (fun e => decide (e.2.foreground_color < palette257.colors.length) &&
        decide (e.2.background_color < palette257.colors.length)) = true := by
  constructor
  · show 256 < (⟨List.replicate 257 (0, 0, 0)⟩ : Palette).colors.length
    rw [show (⟨List.replicate 257 (0, 0, 0)⟩ : Palette).colors
      = List.replicate 257 (0, 0, 0) from rfl]
    rw [List.length_replicate]
    omega
  · rw [List.all_eq_true]
    intro e he
    have h := texel_ids_lt_length palette257.colors blocksEmpty e he
    simp [h.1, h.2]

/-- C10 witness: the amended theorem applied to a concrete texel of a
concrete engine. -/
theorem c10_witness_concrete :
    ((ansifierTexels paletteOne.colors blocksEmpty).getD 0 default).2.foreground_color
        < paletteOne.colors.length ∧
    ((ansifierTexels paletteOne.colors blocksEmpty).getD 0 default).2.background_color
        < paletteOne.colors.length := by
  apply c10_texel_ids_in_bounds paletteOne.colors blocksEmpty
  apply getD_mem_of_lt
  have hsh : mkShades blocksEmpty = [⟨0, 'a'⟩] := by
    simp [mkShades, blocksEmpty, countForegroundPixels]
  have : ansifierTexels paletteOne.colors blocksEmpty =
      [(normalizeColor ((0, 0, 0) : Color), ⟨0, 0, 'a'⟩)] := by
    rw [ansifierTexels, hsh]
    have hsingle : ([(⟨0, 'a'⟩ : Shade)].flatMap (texelsForShade paletteOne.colors)) =
        texelsForShade paletteOne.colors ⟨0, 'a'⟩ := by simp
    rw [hsingle]
    unfold texelsForShade
    rw [if_pos rfl]
    simp [List.range_succ, paletteOne]
  rw [this]
  simp

/-! ## Claim C1 -/

/-- C1 counterexample: a palette of two *equal* colors and a glyph of
coverage 1/2.  The code skips pairs whose palette color *values* are
equal, so it emits 0 texels where the claim requires
`palette.len() * (palette.len() - 1) = 2`. -/
theorem c1_counterexample_duplicate_colors :
    (ansifierTexels paletteDup.colors blocksHalf).length ≠
      paletteDup.colors.length * (paletteDup.colors.length - 1) := by
  have hsh : mkShades blocksHalf = [⟨(1 : ℚ) / 2, 'a'⟩] := by
    unfold mkShades blocksHalf countForegroundPixels
    norm_num
  have htex : ansifierTexels paletteDup.colors blocksHalf = [] := by
    rw [ansifierTexels, hsh]
    have hsingle : ([(⟨(1 : ℚ) / 2, 'a'⟩ : Shade)].flatMap (texelsForShade paletteDup.colors)) =
        texelsForShade paletteDup.colors ⟨(1 : ℚ) / 2, 'a'⟩ := by simp
    rw [hsingle]
    unfold texelsForShade
    rw [if_neg (by norm_num), if_neg (by norm_num)]
    have h2 : paletteDup.colors.length = 2 := rfl
    rw [h2]
    rw [show List.range 2 = [0, 1] from rfl]
    simp [paletteDup]
  rw [htex]
  decide

/-- C1 (amended): for every palette of between 2 and 256 *pairwise
distinct* colors and every engine glyph with coverage strictly between 0
and 1, texel generation emits exactly `len * (len - 1)` texels — one for
each ordered pair of distinct color ids `(fg, bg)`, `fg ≠ bg`, in loop
order — whose synthesized color is the per-channel blend
`fg_normalized * r + bg_normalized * (1 - r)`.  (Pairwise distinctness is
required because the code compares palette color values, not ids; the
256-color bound keeps the 8-bit stored ids equal to the loop indices.) -/
theorem c1_partial_cover_pairs (p : Palette) (b : Blocks) (s : Shade)
    (hs : s ∈ mkShades b) (h2 : 2 ≤ p.colors.length)
    (h256 : p.colors.length ≤ 256) (hnd : p.colors.Nodup)
    (h0 : 0 < s.cover) (h1 : s.cover < 1) :
    (texelsForShade p.colors s).length =
      p.colors.length * (p.colors.length - 1) ∧
    texelsForShade p.colors s =
      (List.range p.colors.length).flatMap (fun i =>
        (List.range p.colors.length).filterMap (fun j =>
          if i = j then none
          else some (blendTwoColors (normalizeColor (p.colors.getD i default))
            (normalizeColor (p.colors.getD j default)) s.cover,
            ⟨i, j, s.block⟩))) := by
  have hb0 : s.cover ≠ 0 := ne_of_gt h0
  have hb1 : s.cover ≠ 1 := ne_of_lt h1
  have heq : texelsForShade p.colors s =
      (List.range p.colors.length).flatMap (fun i =>
        (List.range p.colors.length).filterMap (fun j =>
          if i = j then none
          else some (blendTwoColors (normalizeColor (p.colors.getD i default))
            (normalizeColor (p.colors.getD j default)) s.cover,
            ⟨i, j, s.block⟩))) := by
    unfold texelsForShade
    rw [if_neg hb0, if_neg hb1]
    apply List.flatMap_congr
    intro i hi
    apply List.filterMap_congr
    intro j hj
    have hi' := List.mem_range.mp hi
    have hj' := List.mem_range.mp hj
    by_cases hij : i = j
    · subst hij
      rw [if_pos rfl, if_pos rfl]
    · have hcol : p.colors.getD i default ≠ p.colors.getD j default := by
        intro hcontra
        exact hij ((getD_inj_iff_of_nodup hnd default hi' hj').mp hcontra)
      rw [if_neg hcol, if_neg hij]
      rw [Nat.mod_eq_of_lt (by omega), Nat.mod_eq_of_lt (by omega)]
  refine ⟨?_, heq⟩
  rw [heq, List.length_flatMap]
  have hmap : List.map (List.length ∘ (fun i =>
      (List.range p.colors.length).filterMap (fun j =>
        if i = j then none
        else some (blendTwoColors (normalizeColor (p.colors.getD i default))
          (normalizeColor (p.colors.getD j default)) s.cover,
          (⟨i, j, s.block⟩ : Texel))))) (List.range p.colors.length) =
      List.map (fun _ => p.colors.length - 1) (List.range p.colors.length) := by
    apply List.map_congr_left
    intro i hi
    have hi' := List.mem_range.mp hi
    have hlen := length_filterMap_range_ne (fun j =>
      (blendTwoColors (normalizeColor (p.colors.getD i default))
        (normalizeColor (p.colors.getD j default)) s.cover,
       (⟨i, j, s.block⟩ : Texel))) p.colors.length i
    rw [if_pos hi'] at hlen
    exact hlen
  rw [hmap, List.map_const', List.length_range, List.sum_replicate, smul_eq_mul]

/-- C1 witness: the amended theorem at the black/white palette and the
half-coverage glyph; the two texels are the two ordered pairs. -/
theorem c1_witness_concrete :
    (texelsForShade paletteBW.colors
      ((mkShades blocksHalf).getD 0 (⟨0, 'a'⟩ : Shade))).length =
      paletteBW.colors.length * (paletteBW.colors.length - 1) ∧
    texelsForShade paletteBW.colors ((mkShades blocksHalf).getD 0 (⟨0, 'a'⟩ : Shade)) =
      (List.range paletteBW.colors.length).flatMap (fun i =>
        (List.range paletteBW.colors.length).filterMap (fun j =>
          if i = j then none
          else some (blendTwoColors (normalizeColor (paletteBW.colors.getD i default))
            (normalizeColor (paletteBW.colors.getD j default))
            ((mkShades blocksHalf).getD 0 (⟨0, 'a'⟩ : Shade)).cover,
            (⟨i, j, ((mkShades blocksHalf).getD 0 (⟨0, 'a'⟩ : Shade)).block⟩ : Texel)))) := by
  have hsh : mkShades blocksHalf = [⟨(1 : ℚ) / 2, 'a'⟩] := by
    unfold mkShades blocksHalf countForegroundPixels
    norm_num
  refine c1_partial_cover_pairs paletteBW blocksHalf _ ?_ (by decide) (by decide)
    (by decide) ?_ ?_
  · rw [hsh]
    exact getD_mem_of_lt _ (by simp)
  · rw [hsh]
    norm_num
  · rw [hsh]
    norm_num

/-! ## Claim C2 -/

/-- C2 counterexample: with a 257-color palette and a coverage-0 glyph,
the texel at position 256 stores background id `256 % 256 = 0`, not 256 as
the claim requires (ids are `u8`-truncated). -/
theorem c2_counterexample_id_truncation :
    ((texelsForShade palette257.colors (⟨0, 'a'⟩ : Shade)).getD 256 default).2.background_color
      ≠ 256 := by
  unfold texelsForShade
  rw [if_pos rfl]
  have hlen : palette257.colors.length = 257 := by
    show (List.replicate 257 ((0, 0, 0) : Color)).length = 257
    rw [List.length_replicate]
  rw [hlen]
  rw [getD_map_range _ (show 256 < 257 by omega)]
  show (256 : ℕ) % 256 ≠ 256
  norm_num

/-- C2 (amended): for every non-empty palette of at most 256 colors, a
coverage-0 glyph yields exactly `palette.len()` texels, the `i`-th with
foreground id the sentinel 0, background id `i`, and synthesized color
palette color `i` normalized; symmetrically a coverage-1 glyph yields
`palette.len()` texels with foreground id `i` and background id 0.  (The
256-color bound is forced by the 8-bit id truncation.) -/
theorem c2_full_and_empty_cover (p : Palette) (b : Blocks) (s : Shade)
    (hs : s ∈ mkShades b) (hne : p.colors ≠ []) (h256 : p.colors.length ≤ 256) :
    (s.cover = 0 →
      (texelsForShade p.colors s).length = p.colors.length ∧
      ∀ i, i < p.colors.length →
        (texelsForShade p.colors s).getD i default =
          (normalizeColor (p.colors.getD i default), ⟨0, i, s.block⟩)) ∧
    (s.cover = 1 →
      (texelsForShade p.colors s).length = p.colors.length ∧
      ∀ i, i < p.colors.length →
        (texelsForShade p.colors s).getD i default =
          (normalizeColor (p.colors.getD i default), ⟨i, 0, s.block⟩)) := by
  constructor
  · intro h0
    unfold texelsForShade
    rw [if_pos h0]
    refine ⟨by rw [List.length_map, List.length_range], ?_⟩
    intro i hi
    rw [getD_map_range _ hi]
    rw [Nat.zero_mod, Nat.mod_eq_of_lt (by omega)]
  · intro h1
    unfold texelsForShade
    rw [if_neg (by rw [h1]; norm_num), if_pos h1]
    refine ⟨by rw [List.length_map, List.length_range], ?_⟩
    intro i hi
    rw [getD_map_range _ hi]
    rw [Nat.zero_mod, Nat.mod_eq_of_lt (by omega)]

/-- C2 witness: the amended theorem applied at the one-color palette with
the empty-coverage and the full-coverage glyph. -/
theorem c2_witness_concrete :
    (texelsForShade paletteOne.colors
      ((mkShades blocksEmpty).getD 0 (⟨1, 'a'⟩ : Shade))).length = paletteOne.colors.length ∧
    (texelsForShade paletteOne.colors
      ((mkShades blocksOne).getD 0 (⟨0, 'a'⟩ : Shade))).length = paletteOne.colors.length := by
  have hsh0 : mkShades blocksEmpty = [⟨0, 'a'⟩] := by
    simp [mkShades, blocksEmpty, countForegroundPixels]
  have hsh1 : mkShades blocksOne = [⟨1, 'a'⟩] := by
    unfold mkShades blocksOne countForegroundPixels
    norm_num
  constructor
  · have hmem : (mkShades blocksEmpty).getD 0 (⟨1, 'a'⟩ : Shade) ∈ mkShades blocksEmpty := by
      rw [hsh0]
      exact getD_mem_of_lt _ (by simp)
    exact ((c2_full_and_empty_cover paletteOne blocksEmpty _ hmem (by decide) (by decide)).1
      (by rw [hsh0]; rfl)).1
  · have hmem : (mkShades blocksOne).getD 0 (⟨0, 'a'⟩ : Shade) ∈ mkShades blocksOne := by
      rw [hsh1]
      exact getD_mem_of_lt _ (by simp)
    exact ((c2_full_and_empty_cover paletteOne blocksOne _ hmem (by decide) (by decide)).2
      (by rw [hsh1]; rfl)).1

/-! ## Claim C6 -/

/-- C6: the map texture returned by `generate_lut_and_map` is 256×2; row 0
column `i` holds palette color `i` with alpha 255 for `i < palette.len()`;
row 1 column `j` holds glyph `j`'s coverage bitmap packed into a 32-bit
value — bit `(i + k*cell_width)` set iff cell pixel (column `i`, row `k`)
is foreground, and no bits at or above the cell area — split into four
bytes stored as R,G,B,A least-significant first.  The key-uniqueness
hypothesis is the `BTreeMap` invariant. -/
theorem c6_map_texture (a : ANSIfier) (l m : Image RGBA)
    (hok : generateLutAndMap a = Outcome.ok (l, m))
    (hnd : (a.blocks.blocks.map Prod.fst).Nodup) :
    m.width = 256 ∧ m.height = 2 ∧
    (∀ i, i < a.palette.colors.length →
      m.pix i 0 = ((a.palette.colors.getD i default).1,
        (a.palette.colors.getD i default).2.1,
        (a.palette.colors.getD i default).2.2, 255)) ∧
    (∀ j, j < a.blocks.blocks.length →
      m.pix j 1 = byteSplit (glyphMask a.blocks.width a.blocks.height
        ((a.blocks.blocks.getD j default).2)) ∧
      (∀ i k, i < a.blocks.width → k < a.blocks.height →
        (glyphMask a.blocks.width a.blocks.height
          ((a.blocks.blocks.getD j default).2)).testBit (i + k * a.blocks.width)
          = (((a.blocks.blocks.getD j default).2).getD k []).getD i false) ∧
      (∀ pos, a.blocks.width * a.blocks.height ≤ pos →
        (glyphMask a.blocks.width a.blocks.height
          ((a.blocks.blocks.getD j default).2)).testBit pos = false)) := by
  have hm : m = mapImage a := by
    unfold generateLutAndMap at hok
    by_cases hcond : (a.palette.colors.length ≤ 256 ∧ a.blocks.blocks.length ≤ 256 ∧
        a.blocks.width * a.blocks.height ≤ 32)
    · rw [if_pos hcond] at hok
      by_cases hemp : a.texels = []
      · rw [if_pos hemp] at hok
        exact absurd hok (by simp)
      · rw [if_neg hemp] at hok
        have := Outcome.ok.inj hok
        exact (Prod.mk.injEq .. ▸ this).2.symm
    · rw [if_neg hcond] at hok
      exact absurd hok (by simp)
  subst hm
  refine ⟨?_, ?_, ?_, ?_⟩
  · unfold mapImage
    rw [Image.writeAll_width]
    rfl
  · unfold mapImage
    rw [Image.writeAll_height]
    rfl
  · intro i hi
    unfold mapImage mapWrites
    rw [mapRows_writeAll_pix]
    rw [if_neg (by simp), if_pos ⟨rfl, List.mem_range.mpr hi⟩]
    rfl
  · intro j hj
    have hbit : glyphBitmapAt a.blocks j = (a.blocks.blocks.getD j default).2 := by
      unfold glyphBitmapAt
      rw [lookup_key_at a.blocks.blocks hnd j hj]
      rfl
    refine ⟨?_, ?_, ?_⟩
    · unfold mapImage mapWrites
      rw [mapRows_writeAll_pix]
      rw [if_pos ⟨rfl, List.mem_range.mpr hj⟩]
      unfold maskRowPixel
      rw [hbit]
    · intro i k hik hk
      exact testBit_glyphMask_in_cell _ hik hk
    · intro pos hpos
      exact testBit_glyphMask_high _ hpos

/-- Evaluation of the single texel of the one-color, one-full-glyph
engine, shared by concrete witnesses. -/
theorem engineOne_texels :
    engineOne.texels = [(normalizeColor ((0, 0, 0) : Color), ⟨0, 0, 'a'⟩)] := by
  show ansifierTexels paletteOne.colors blocksOne = _
  have hsh : mkShades blocksOne = [⟨1, 'a'⟩] := by
    unfold mkShades blocksOne countForegroundPixels
    norm_num
  rw [ansifierTexels, hsh]
  have hsingle : ([(⟨1, 'a'⟩ : Shade)].flatMap (texelsForShade paletteOne.colors)) =
      texelsForShade paletteOne.colors ⟨1, 'a'⟩ := by simp
  rw [hsingle]
  unfold texelsForShade
  rw [if_neg (by norm_num), if_pos rfl]
  simp [List.range_succ, paletteOne]

/-- The one-color, one-glyph engine passes the capacity asserts and has a
non-empty texel set, so GPU table generation completes. -/
theorem generateLutAndMap_engineOne :
    generateLutAndMap engineOne = Outcome.ok (lutImage engineOne, mapImage engineOne) := by
  unfold generateLutAndMap
  rw [if_pos ⟨by decide, by decide, by decide⟩]
  rw [if_neg (by rw [engineOne_texels]; simp)]

/-- C6 witness: the theorem at the one-color, one-glyph engine. -/
theorem c6_witness_concrete :
    (mapImage engineOne).width = 256 ∧ (mapImage engineOne).height = 2 ∧
    (mapImage engineOne).pix 0 0 = (0, 0, 0, 255) ∧
    (mapImage engineOne).pix 0 1 =
      byteSplit (glyphMask engineOne.blocks.width engineOne.blocks.height
        ((engineOne.blocks.blocks.getD 0 default).2)) := by
  have h := c6_map_texture engineOne (lutImage engineOne) (mapImage engineOne)
    generateLutAndMap_engineOne (by simp [engineOne, ansifierNew, blocksOne])
  refine ⟨h.1, h.2.1, ?_, (h.2.2.2 0 (by decide)).1⟩
  have h0 := h.2.2.1 0 (by decide)
  rw [h0]
  rfl

/-! ## Claim C9 -/

/-- C9: for every engine and every scheduler execution order of the three
parallel loops (any permutation of the canonical address lists — rayon's
work order is unspecified, but each address's write is disjoint and
deterministic), `par_generate_lut_and_map` produces exactly the same
(LUT, Map) pair as the sequential `generate_lut_and_map`, including the
same abort behavior of the shared capacity asserts. -/
theorem c9_par_equals_seq (a : ANSIfier) (schedLut : List (ℕ × ℕ))
    (sched0 sched1 : List ℕ)
    (hL : schedLut.Perm lutAddresses)
    (h0 : sched0.Perm (List.range a.palette.colors.length))
    (h1 : sched1.Perm (List.range a.blocks.blocks.length)) :
    parGenerateLutAndMap a schedLut sched0 sched1 = generateLutAndMap a := by
  unfold parGenerateLutAndMap generateLutAndMap
  by_cases hcond : (a.palette.colors.length ≤ 256 ∧ a.blocks.blocks.length ≤ 256 ∧
      a.blocks.width * a.blocks.height ≤ 32)
  · rw [if_pos hcond, if_pos hcond]
    have hlut : (Image.mk0 RGBA 4096 4096).writeAll
        (schedLut.map (fun p => (p, lutPixel a p.1 p.2))) = lutImage a := by
      apply Image.ext'
      · rw [Image.writeAll_width]
        rfl
      · rw [Image.writeAll_height]
        rfl
      · funext u v
        rw [lutWrites_writeAll_pix]
        have hmem : ((u, v) ∈ schedLut) ↔ (u < 4096 ∧ v < 4096) := by
          rw [hL.mem_iff]
          exact mem_lutAddresses
        show _ = (if u < 4096 ∧ v < 4096 then lutPixel a u v else default)
        rw [if_congr hmem rfl rfl]
        rfl
    have hmap : (Image.mk0 RGBA 256 2).writeAll
        ((sched0.map (fun x => ((x, 0), paletteRowPixel a x)))
          ++ (sched1.map (fun j => ((j, 1), maskRowPixel a j)))) = mapImage a := by
      apply Image.ext'
      · rw [Image.writeAll_width]
        unfold mapImage
        rw [Image.writeAll_width]
      · rw [Image.writeAll_height]
        unfold mapImage
        rw [Image.writeAll_height]
      · funext u v
        rw [mapRows_writeAll_pix]
        unfold mapImage mapWrites
        rw [mapRows_writeAll_pix]
        rw [if_congr (and_congr_right (fun _ => h1.mem_iff)) rfl
          (if_congr (and_congr_right (fun _ => h0.mem_iff)) rfl rfl)]
    rw [hlut, hmap]
  · rw [if_neg hcond, if_neg hcond]

/-- C9 witness: the theorem at the one-color, one-glyph engine and the
canonical schedules. -/
theorem c9_witness_concrete :
    parGenerateLutAndMap engineOne lutAddresses
      (List.range engineOne.palette.colors.length)
      (List.range engineOne.blocks.blocks.length) = generateLutAndMap engineOne :=
  c9_par_equals_seq engineOne lutAddresses _ _ (List.Perm.refl _)
    (List.Perm.refl _) (List.Perm.refl _)

/-! ## Claim C5 -/

/-- C5: the LUT texture returned by `generate_lut_and_map` is 4096×4096
and, at every address `(x, y)`, holds `(fg, bg, glyph_index, 255)` of the
texel nearest to the color reconstructed as `r = x & 0xFF`, `g = y & 0xFF`,
`b = ((x >> 8) & 0xF) | (((y >> 8) & 0xF) << 4)` (normalized), where
`glyph_index` is the 0-based position of the texel's glyph in the glyph
iteration sequence — character-code order, by the sortedness invariant of
the `BTreeMap`, stated as the `Pairwise` hypothesis. -/
theorem c5_lut_contents (a : ANSIfier) (l m : Image RGBA)
    (hok : generateLutAndMap a = Outcome.ok (l, m))
    (hsorted : (a.blocks.blocks.map Prod.fst).Pairwise (· < ·))
    (x y : ℕ) (hx : x < 4096) (hy : y < 4096) (e : QColor × Texel)
    (hmem : e.2.block ∈ a.blocks.blocks.map Prod.fst)
    (hn : nearest a.texels (reconstructColor x y) = some e) :
    l.width = 4096 ∧ l.height = 4096 ∧
    l.pix x y = (e.2.foreground_color, e.2.background_color,
      (a.blocks.blocks.map Prod.fst).indexOf e.2.block, 255) := by
  have hl : l = lutImage a ∧ a.blocks.blocks.length ≤ 256 := by
    unfold generateLutAndMap at hok
    by_cases hcond : (a.palette.colors.length ≤ 256 ∧ a.blocks.blocks.length ≤ 256 ∧
        a.blocks.width * a.blocks.height ≤ 32)
    · rw [if_pos hcond] at hok
      by_cases hemp : a.texels = []
      · rw [if_pos hemp] at hok
        exact absurd hok (by simp)
      · rw [if_neg hemp] at hok
        have := Outcome.ok.inj hok
        exact ⟨(Prod.mk.injEq .. ▸ this).1.symm, hcond.2.1⟩
    · rw [if_neg hcond] at hok
      exact absurd hok (by simp)
  obtain ⟨rfl, h256⟩ := hl
  refine ⟨rfl, rfl, ?_⟩
  show (if x < 4096 ∧ y < 4096 then lutPixel a x y else default) = _
  rw [if_pos ⟨hx, hy⟩]
  unfold lutPixel
  rw [hn]
  show (e.2.foreground_color, e.2.background_color,
    charIdx (a.blocks.blocks.map Prod.fst) e.2.block, 255) = _
  unfold charIdx
  have hidx : (a.blocks.blocks.map Prod.fst).indexOf e.2.block <
      (a.blocks.blocks.map Prod.fst).length :=
    List.indexOf_lt_length.mpr hmem
  rw [Nat.mod_eq_of_lt (by rw [List.length_map] at hidx; omega)]

/-- C5 witness: the theorem at the one-color, one-glyph engine and address
(0, 0); the single texel is the full-coverage glyph over the single
palette color. -/
theorem c5_witness_concrete :
    (lutImage engineOne).width = 4096 ∧ (lutImage engineOne).height = 4096 ∧
    (lutImage engineOne).pix 0 0 = (0, 0,
      (engineOne.blocks.blocks.map Prod.fst).indexOf 'a', 255) := by
  have h := c5_lut_contents engineOne (lutImage engineOne) (mapImage engineOne)
    generateLutAndMap_engineOne (by simp [engineOne, ansifierNew, blocksOne]) 0 0
    (by decide) (by decide)
    (normalizeColor ((0, 0, 0) : Color), ⟨0, 0, 'a'⟩)
    (by simp [engineOne, ansifierNew, blocksOne])
    (by rw [show nearest engineOne.texels (reconstructColor 0 0) =
          nearest [(normalizeColor ((0, 0, 0) : Color), ⟨0, 0, 'a'⟩)]
            (reconstructColor 0 0) from by rw [engineOne_texels]]
        rfl)
  exact h

/-! ## Claim C8 -/

/-- C8: the output raster of `process` has size
`(W*cell_width, H*cell_height)`, and for every source pixel `(x, y)` whose
nearest texel is `e` and every in-cell offset `(i, j)`, the output pixel
at `(x*cell_width + i, y*cell_height + j)` is the palette color at `e`'s
foreground id if `e`'s glyph bitmap at row `j`, column `i` is set, and at
`e`'s background id otherwise. -/
theorem c8_process_output (a : ANSIfier) (img : Image Color) (x y i j : ℕ)
    (hx : x < img.width) (hy : y < img.height)
    (hi : i < a.blocks.width) (hj : j < a.blocks.height)
    (e : QColor × Texel)
    (hn : nearest a.texels (normalizeColor (img.pix x y)) = some e) :
    (processImage a img).width = img.width * a.blocks.width ∧
    (processImage a img).height = img.height * a.blocks.height ∧
    (processImage a img).pix (x * a.blocks.width + i) (y * a.blocks.height + j) =
      (if blockBit a.blocks e.2.block j i then
        a.palette.colors.getD e.2.foreground_color default
      else a.palette.colors.getD e.2.background_color default) := by
  have hpt : pixelTexel a (img.pix x y) = e.2 := by
    unfold pixelTexel
    rw [hn]
  refine ⟨?_, ?_, ?_⟩
  · unfold processImage
    rw [Image.writeAll_width]
    rfl
  · unfold processImage
    rw [Image.writeAll_height]
    rfl
  · unfold processImage
    rw [Image.writeAll_pix _ _ _ _
      (if blockBit a.blocks e.2.block j i then
        a.palette.colors.getD e.2.foreground_color default
      else a.palette.colors.getD e.2.background_color default) ?hval]
    case hval =>
      intro q hq hkey
      unfold processWrites at hq
      rw [List.mem_flatMap] at hq
      obtain ⟨y', hy', hq⟩ := hq
      rw [List.mem_flatMap] at hq
      obtain ⟨x', hx', hq⟩ := hq
      rw [List.mem_flatMap] at hq
      obtain ⟨i', hi', hq⟩ := hq
      rw [List.mem_map] at hq
      obtain ⟨j', hj', rfl⟩ := hq
      have hi'' := List.mem_range.mp hi'
      have hj'' := List.mem_range.mp hj'
      simp only [Prod.mk.injEq] at hkey
      obtain ⟨hku, hkv⟩ := hkey
      obtain ⟨rfl, rfl⟩ := block_coord_inj hi'' hi hku
      obtain ⟨rfl, rfl⟩ := block_coord_inj hj'' hj hkv
      rw [hpt]
    · rw [if_pos ?hmem]
      case hmem =>
        rw [List.mem_map]
        refine ⟨((x * a.blocks.width + i, y * a.blocks.height + j),
          if blockBit a.blocks (pixelTexel a (img.pix x y)).block j i then
            a.palette.colors.getD (pixelTexel a (img.pix x y)).foreground_color default
          else
            a.palette.colors.getD (pixelTexel a (img.pix x y)).background_color default),
          ?_, rfl⟩
        unfold processWrites
        rw [List.mem_flatMap]
        refine ⟨y, List.mem_range.mpr hy, ?_⟩
        rw [List.mem_flatMap]
        refine ⟨x, List.mem_range.mpr hx, ?_⟩
        rw [List.mem_flatMap]
        refine ⟨i, List.mem_range.mpr hi, ?_⟩
        rw [List.mem_map]
        exact ⟨j, List.mem_range.mpr hj, rfl⟩

/-- C8 witness: the theorem at the one-color, one-glyph engine and a 1×1
source image; the single block pixel takes the foreground (= only) palette
color. -/
theorem c8_witness_concrete :
    (processImage engineOne imgOne).width = 1 ∧
    (processImage engineOne imgOne).height = 1 ∧
    (processImage engineOne imgOne).pix 0 0 = paletteOne.colors.getD 0 default := by
  have h := c8_process_output engineOne imgOne 0 0 0 0 (by decide) (by decide)
    (by decide) (by decide) (normalizeColor ((0, 0, 0) : Color), ⟨0, 0, 'a'⟩)
    (by rw [show nearest engineOne.texels (normalizeColor (imgOne.pix 0 0)) =
          nearest [(normalizeColor ((0, 0, 0) : Color), ⟨0, 0, 'a'⟩)]
            (normalizeColor (imgOne.pix 0 0)) from by rw [engineOne_texels]]
        rfl)
  refine ⟨h.1.trans (by decide), h.2.1.trans (by decide), ?_⟩
  have h3 := h.2.2
  rw [if_pos (by decide)] at h3
  exact h3
